import Mathlib

/-!
Verification of the character-table generator `testnodegen/genchar.py`.

The program is a single routine `DoJob(f)` that

* builds the six-entry literal `style_table`;
* for each code point `i` in `range(0x4e00, 0x9fff + 1)` appends the entry
  `{'char': unichr(i), 'color': random.randint(0, len(style_table) - 1)}`;
* writes `json.dumps(o)` (default options) to the sink `f` in one call,
  where `o = {'style_table': style_table, 'entries': entries}`.

The embedding below models the process-wide random source as a stream of
natural numbers (`RandSrc`), `random.randint a b` as consuming one draw and
reducing it into the inclusive range `[a, b]`, the loop as a recursion over
the ascending code-point list, and `json.dumps` as a renderer over a JSON
syntax tree, faithful to the CPython 2 encoder (ASCII escaping, `", "` and
`": "` separators, dict-slot iteration order).
-/

namespace GenChar

/-- Model of the process-wide random source: the stream of raw draws it will
hand out, in order. -/
def RandSrc : Type := Nat → Nat

/-- Model of `random.randint(a, b)`: consume one raw draw from the source and
return a value in the inclusive range `[a, b]`, together with the advanced
source. -/
def randint (a b : Nat) (s : RandSrc) : Nat × RandSrc :=
  (a + s 0 % (b + 1 - a), fun n => s (n + 1))

/-- One element of the literal style palette: `{'color': ..., 'size': ...}`. -/
structure StyleEntry where
  color : String
  size : String
deriving DecidableEq, Repr

/-- One generated record: `{'char': unichr(i), 'color': randint(0, 5)}`.
The `char` field holds the single character the Python string consists of. -/
structure CharacterEntry where
  char : Char
  color : Nat
deriving DecidableEq, Repr

/-- The in-memory document `o` built by `DoJob`. -/
structure OutputDocument where
  style_table : List StyleEntry
  entries : List CharacterEntry
deriving DecidableEq, Repr

/-- The literal list assigned to `style_table` in `DoJob`. -/
def style_table : List StyleEntry :=
  [⟨"#B5B7C9", "14px"⟩, ⟨"#8B91AD", "20px"⟩, ⟨"#4E516B", "24px"⟩,
   ⟨"#2E3347", "27px"⟩, ⟨"#925D78", "30px"⟩, ⟨"#F1C5B5", "34px"⟩]

/-- The iteration space of the loop, `range(0x4e00, 0x9fff + 1)`: the ascending
list of code points `0x4E00, 0x4E01, ..., 0x9FFF`. -/
def charRange : List Nat := List.range' 0x4E00 (0x9FFF + 1 - 0x4E00)

/-- The loop body of `DoJob`, iterated over the remaining code points: for each
`i` it builds `{'char': unichr(i), 'color': random.randint(0, len(style_table) - 1)}`
and appends it.  Returns the entry list together with the state the random
source is left in. -/
def genEntries : List Nat → RandSrc → List CharacterEntry × RandSrc
  | [], s => ([], s)
  | i :: rest, s =>
    ((⟨Char.ofNat i, (randint 0 (style_table.length - 1) s).1⟩ : CharacterEntry) ::
       (genEntries rest (randint 0 (style_table.length - 1) s).2).1,
     (genEntries rest (randint 0 (style_table.length - 1) s).2).2)

/-- The pure content of `DoJob`: the document it builds, together with the
state the random source is left in. -/
def DoJob (s : RandSrc) : OutputDocument × RandSrc :=
  ({ style_table := style_table, entries := (genEntries charRange s).1 },
   (genEntries charRange s).2)

/-! JSON serialization, modelling `json.dumps` with default options as CPython 2
runs it: ASCII output with \uXXXX escapes, item separator comma-space, key
separator colon-space, no indent, no trailing newline. -/

/-- Code point 34, the double quotation mark. -/
def quoteChar : Char := Char.ofNat 34

/-- Code point 92, the backslash. -/
def backslashChar : Char := Char.ofNat 92

/-- Code point 123, the opening curly brace. -/
def lbraceChar : Char := Char.ofNat 123

/-- Code point 125, the closing curly brace. -/
def rbraceChar : Char := Char.ofNat 125

/-- Code point 91, the opening square bracket. -/
def lbrackChar : Char := Char.ofNat 91

/-- Code point 93, the closing square bracket. -/
def rbrackChar : Char := Char.ofNat 93

/-- Code point 44, the comma. -/
def commaChar : Char := Char.ofNat 44

/-- Code point 58, the colon. -/
def colonChar : Char := Char.ofNat 58

/-- Code point 32, the space. -/
def spaceChar : Char := Char.ofNat 32

/-! Syntax trees for the JSON texts involved: strings, nonnegative integers
(the only numbers this program emits), booleans, null, arrays and objects
with ordered members. -/
mutual
inductive Json where
  | str : String → Json
  | num : Nat → Json
  | bool : Bool → Json
  | null : Json
  | arr : JsonList → Json
  | obj : JsonMembers → Json
inductive JsonList where
  | nil : JsonList
  | cons : Json → JsonList → JsonList
inductive JsonMembers where
  | nil : JsonMembers
  | cons : String → Json → JsonMembers → JsonMembers
end

/-- Lowercase hexadecimal digit character, as CPython prints inside \uXXXX. -/
def hexDigitChar (n : Nat) : Char :=
  if n < 10 then Char.ofNat (48 + n) else Char.ofNat (87 + n)

/-- The four lowercase hex digits of a 16-bit value, most significant first. -/
def hex4 (n : Nat) : List Char :=
  [hexDigitChar (n / 4096 % 16), hexDigitChar (n / 256 % 16),
   hexDigitChar (n / 16 % 16), hexDigitChar (n % 16)]

/-- Escaping of one character by the CPython 2 `ensure_ascii` string encoder:
quote and backslash get a backslash escape, the control characters with short
escapes get those, every other character from space to tilde is emitted
verbatim, and everything else becomes \uXXXX escapes (a surrogate pair above
the basic multilingual plane). -/
def escapeChar (c : Char) : List Char :=
  if c = quoteChar then [backslashChar, quoteChar]
  else if c = backslashChar then [backslashChar, backslashChar]
  else if c = Char.ofNat 8 then [backslashChar, 'b']
  else if c = Char.ofNat 9 then [backslashChar, 't']
  else if c = Char.ofNat 10 then [backslashChar, 'n']
  else if c = Char.ofNat 12 then [backslashChar, 'f']
  else if c = Char.ofNat 13 then [backslashChar, 'r']
  else if 0x20 ≤ c.toNat ∧ c.toNat ≤ 0x7E then [c]
  else if c.toNat < 0x10000 then backslashChar :: 'u' :: hex4 c.toNat
  else
    backslashChar :: 'u' :: hex4 (0xD800 + (c.toNat - 0x10000) / 0x400) ++
      backslashChar :: 'u' :: hex4 (0xDC00 + (c.toNat - 0x10000) % 0x400)

/-- Escaping of a character sequence, in order. -/
def escapeList : List Char → List Char
  | [] => []
  | c :: cs => escapeChar c ++ escapeList cs

/-- A JSON string literal: quote, escaped content, quote. -/
def renderString (l : List Char) : List Char :=
  quoteChar :: (escapeList l ++ [quoteChar])

/-! Rendering of a JSON tree to text, as `json.dumps` with default options
prints it: item separator comma-space, key separator colon-space, and no
whitespace anywhere else. -/
mutual
def renderJson : Json → List Char
  | .str s => renderString s.data
  | .num n => (Nat.repr n).data
  | .bool b => if b then "true".data else "false".data
  | .null => "null".data
  | .arr xs => lbrackChar :: (renderList xs ++ [rbrackChar])
  | .obj ms => lbraceChar :: (renderMembers ms ++ [rbraceChar])
def renderList : JsonList → List Char
  | .nil => []
  | .cons x .nil => renderJson x
  | .cons x (.cons y ys) =>
      renderJson x ++ commaChar :: spaceChar :: renderList (.cons y ys)
def renderMembers : JsonMembers → List Char
  | .nil => []
  | .cons k v .nil =>
      renderString k.data ++ colonChar :: spaceChar :: renderJson v
  | .cons k v (.cons k2 v2 ms) =>
      renderString k.data ++ colonChar :: spaceChar :: renderJson v ++
        commaChar :: spaceChar :: renderMembers (.cons k2 v2 ms)
end

/-- JSON tree of one style entry, a dict built as
`{'color': ..., 'size': ...}`.  CPython 2.7 iterates a dict in hash-slot
order: with the fixed 2.7 string hash, 'color' lands in slot 0 and 'size' in
slot 7 of the 8-slot table, so iteration (and hence `json.dumps`) yields
'color' before 'size'. -/
def styleJson (e : StyleEntry) : Json :=
  .obj (.cons "color" (.str e.color) (.cons "size" (.str e.size) .nil))

/-- JSON trees of the style table, in list order. -/
def stylesJson : List StyleEntry → JsonList
  | [] => .nil
  | e :: es => .cons (styleJson e) (stylesJson es)

/-- JSON tree of one character entry, a dict built as `entry['char'] = char`
then `entry['color'] = ...`.  Both 2.7 string hashes land in slot 0; 'char'
is inserted first and keeps slot 0, 'color' probes to slot
(5 dot 0 + hash + 1) mod 8 = 1, so iteration yields 'char' before 'color'. -/
def charEntryJson (e : CharacterEntry) : Json :=
  .obj (.cons "char" (.str (String.mk [e.char]))
    (.cons "color" (.num e.color) .nil))

/-- JSON trees of the entry list, in list order. -/
def entriesJson : List CharacterEntry → JsonList
  | [] => .nil
  | e :: es => .cons (charEntryJson e) (entriesJson es)

/-- JSON tree of the document `o = {'style_table': ..., 'entries': ...}`.
With the fixed CPython 2.7 string hash, 'style_table' lands in slot 5 and
'entries' in slot 7 of the 8-slot dict table, so iteration (and hence
`json.dumps`) yields 'style_table' before 'entries'. -/
def docJson (d : OutputDocument) : Json :=
  .obj (.cons "style_table" (.arr (stylesJson d.style_table))
    (.cons "entries" (.arr (entriesJson d.entries)) .nil))

/-- Model of `json.dumps(o)`: the rendered document text. -/
def dumps (d : OutputDocument) : String := String.mk (renderJson (docJson d))

/-- The text `DoJob` hands to `f.write`. -/
def DoJobOutput (s : RandSrc) : String := dumps (DoJob s).1

/-- Model of the write trace of `DoJob f`: the loop writes nothing, and the
one call `f.write(json.dumps(o))` delivers the whole serialized document. -/
def DoJobWrites (s : RandSrc) : List String := [DoJobOutput s]

/-- Effectful model of `DoJob f`: the pure document construction (total, no
failure paths) followed by the single write to the sink, whose failure is the
only possible error and is not caught. -/
def DoJobEffect {ε : Type} (s : RandSrc) (write : String → Except ε Unit) :
    Except ε Unit :=
  write (DoJobOutput s)

/-- Model of `main()`: it calls `DoJob(sys.stdout)` with no handler around
it, so whatever `DoJob` raises propagates to the process boundary. -/
def main {ε : Type} (s : RandSrc) (stdoutWrite : String → Except ε Unit) :
    Except ε Unit :=
  DoJobEffect s stdoutWrite

/-! A recursive-descent parser for JSON text, used to state that the output
is syntactically valid JSON of the documented shape.  The recursion over
nested values is bounded by an explicit fuel. -/

/-- Whitespace characters of the JSON grammar. -/
def isWsChar (c : Char) : Bool :=
  c = spaceChar || c = Char.ofNat 9 || c = Char.ofNat 10 || c = Char.ofNat 13

/-- Consume leading whitespace. -/
def skipWs : List Char → List Char
  | [] => []
  | c :: cs => if isWsChar c then skipWs cs else c :: cs

/-- Value of a decimal digit character. -/
def digitVal (c : Char) : Option Nat :=
  if 48 ≤ c.toNat ∧ c.toNat ≤ 57 then some (c.toNat - 48) else none

/-- Value of a hexadecimal digit character, either case. -/
def hexVal (c : Char) : Option Nat :=
  if 48 ≤ c.toNat ∧ c.toNat ≤ 57 then some (c.toNat - 48)
  else if 97 ≤ c.toNat ∧ c.toNat ≤ 102 then some (c.toNat - 87)
  else if 65 ≤ c.toNat ∧ c.toNat ≤ 70 then some (c.toNat - 55)
  else none

/-- Consume a maximal run of decimal digits into an accumulator. -/
def parseDigitsAux : List Char → Nat → Nat × List Char
  | [], acc => (acc, [])
  | c :: cs, acc =>
    match digitVal c with
    | some d => parseDigitsAux cs (10 * acc + d)
    | none => (acc, c :: cs)

/-- Parse a nonnegative integer literal (at least one digit). -/
def parseNat : List Char → Option (Nat × List Char)
  | [] => none
  | c :: cs =>
    match digitVal c with
    | some d => some (parseDigitsAux cs d)
    | none => none

/-- Decode a single-character escape. -/
def unescape (e : Char) : Option Char :=
  if e = quoteChar then some quoteChar
  else if e = backslashChar then some backslashChar
  else if e = '/' then some '/'
  else if e = 'b' then some (Char.ofNat 8)
  else if e = 'f' then some (Char.ofNat 12)
  else if e = 'n' then some (Char.ofNat 10)
  else if e = 'r' then some (Char.ofNat 13)
  else if e = 't' then some (Char.ofNat 9)
  else none

/-- Parse the body of a string literal after the opening quote, returning the
decoded characters and the text after the closing quote. -/
def parseStringBody : List Char → Option (List Char × List Char)
  | [] => none
  | c :: cs =>
    if c = quoteChar then some ([], cs)
    else if c = backslashChar then
      match cs with
      | 'u' :: a :: b :: d :: e :: cs2 =>
        match hexVal a, hexVal b, hexVal d, hexVal e with
        | some ha, some hb, some hd, some he =>
          match parseStringBody cs2 with
          | some (t, r) =>
            some (Char.ofNat (4096 * ha + 256 * hb + 16 * hd + he) :: t, r)
          | none => none
        | _, _, _, _ => none
      | e :: cs2 =>
        match unescape e with
        | some u =>
          match parseStringBody cs2 with
          | some (t, r) => some (u :: t, r)
          | none => none
        | none => none
      | [] => none
    else if 0x20 ≤ c.toNat then
      match parseStringBody cs with
      | some (t, r) => some (c :: t, r)
      | none => none
    else none

/-! Parse one JSON value, then the elements of an array after its first
character, then the members of an object after its first character. -/
mutual
def parseValue : Nat → List Char → Option (Json × List Char)
  | 0, _ => none
  | fuel + 1, input =>
    match skipWs input with
    | [] => none
    | c :: cs =>
      if c = quoteChar then
        match parseStringBody cs with
        | some (t, r) => some (.str (String.mk t), r)
        | none => none
      else if c = lbrackChar then
        match skipWs cs with
        | [] => none
        | d :: ds =>
          if d = rbrackChar then some (.arr .nil, ds)
          else
            match parseElems fuel (d :: ds) with
            | some (xs, r) => some (.arr xs, r)
            | none => none
      else if c = lbraceChar then
        match skipWs cs with
        | [] => none
        | d :: ds =>
          if d = rbraceChar then some (.obj .nil, ds)
          else
            match parseMembers fuel (d :: ds) with
            | some (ms, r) => some (.obj ms, r)
            | none => none
      else if c = 't' then
        match cs with
        | 'r' :: 'u' :: 'e' :: r => some (.bool true, r)
        | _ => none
      else if c = 'f' then
        match cs with
        | 'a' :: 'l' :: 's' :: 'e' :: r => some (.bool false, r)
        | _ => none
      else if c = 'n' then
        match cs with
        | 'u' :: 'l' :: 'l' :: r => some (.null, r)
        | _ => none
      else
        match parseNat (c :: cs) with
        | some (n, r) => some (.num n, r)
        | none => none
def parseElems : Nat → List Char → Option (JsonList × List Char)
  | 0, _ => none
  | fuel + 1, input =>
    match parseValue fuel input with
    | none => none
    | some (v, r) =>
      match skipWs r with
      | [] => none
      | c :: cs =>
        if c = commaChar then
          match parseElems fuel cs with
          | some (xs, r2) => some (.cons v xs, r2)
          | none => none
        else if c = rbrackChar then some (.cons v .nil, cs)
        else none
def parseMembers : Nat → List Char → Option (JsonMembers × List Char)
  | 0, _ => none
  | fuel + 1, input =>
    match skipWs input with
    | [] => none
    | c :: cs =>
      if c = quoteChar then
        match parseStringBody cs with
        | none => none
        | some (k, r) =>
          match skipWs r with
          | [] => none
          | d :: ds =>
            if d = colonChar then
              match parseValue fuel ds with
              | none => none
              | some (v, r2) =>
                match skipWs r2 with
                | [] => none
                | e :: es =>
                  if e = commaChar then
                    match parseMembers fuel es with
                    | some (ms, r3) => some (.cons (String.mk k) v ms, r3)
                    | none => none
                  else if e = rbraceChar then
                    some (.cons (String.mk k) v .nil, es)
                  else none
            else none
      else none
end

/-- Parse a complete JSON document: one value with nothing but whitespace
after it.  The fuel is ample for any input of this length. -/
def parseJson (s : String) : Option Json :=
  match parseValue (2 * s.data.length + 2) s.data with
  | some (v, r) => if skipWs r = [] then some v else none
  | none => none

/-- Characters that the encoder may emit verbatim inside a string literal and
that the parser hands back unchanged: printable ASCII other than quote and
backslash. -/
def plainChar (c : Char) : Bool :=
  decide (0x20 ≤ c.toNat) && decide (c.toNat ≤ 0x7E) &&
    decide (c ≠ quoteChar) && decide (c ≠ backslashChar)

/-- Characters the encoder escapes as one \uXXXX group that the parser
decodes back: code points from 0x7F below the surrogate range. -/
def escSafeChar (c : Char) : Bool :=
  decide (0x7F ≤ c.toNat) && decide (c.toNat < 0xD800)

/-- Characters whose escaping round-trips through the parser. -/
def wfChar (c : Char) : Bool := plainChar c || escSafeChar c

/-- Strings whose rendering round-trips through the parser. -/
def wfString (s : String) : Bool := s.data.all wfChar

/-! JSON trees whose rendering round-trips: strings well formed, numbers a
single digit (the only numbers this program emits). -/
mutual
def wfJson : Json → Bool
  | .str s => wfString s
  | .num n => decide (n < 10)
  | .bool _ => true
  | .null => true
  | .arr xs => wfList xs
  | .obj ms => wfMembers ms
def wfList : JsonList → Bool
  | .nil => true
  | .cons x xs => wfJson x && wfList xs
def wfMembers : JsonMembers → Bool
  | .nil => true
  | .cons k v ms => wfString k && wfJson v && wfMembers ms
end

/-! Fuel sufficient to parse the rendering of a tree. -/
mutual
def fuelJson : Json → Nat
  | .str _ => 1
  | .num _ => 1
  | .bool _ => 1
  | .null => 1
  | .arr xs => fuelList xs + 1
  | .obj ms => fuelMembers ms + 1
def fuelList : JsonList → Nat
  | .nil => 1
  | .cons x xs => fuelJson x + fuelList xs + 1
def fuelMembers : JsonMembers → Nat
  | .nil => 1
  | .cons _ v ms => fuelJson v + fuelMembers ms + 1
end

/-- Texts that do not continue a digit run: empty, or starting with a
non-digit. -/
def noDigitStart : List Char → Bool
  | [] => true
  | c :: _ => (digitVal c).isNone

/-- Number of elements of a JSON array. -/
def jsonListLength : JsonList → Nat
  | .nil => 0
  | .cons _ xs => jsonListLength xs + 1

/-- Does every element satisfy the predicate. -/
def allElems (p : Json → Bool) : JsonList → Bool
  | .nil => true
  | .cons x xs => p x && allElems p xs

/-- Shape of a style-table element: an object with exactly the keys 'color'
and 'size' in that order, both strings. -/
def styleShape : Json → Bool
  | .obj (.cons k1 (.str _) (.cons k2 (.str _) .nil)) =>
      k1 = "color" && k2 = "size"
  | _ => false

/-- Shape of an entries element: an object with exactly the keys 'char' (a
string) and 'color' (an integer) in that order. -/
def entryShape : Json → Bool
  | .obj (.cons k1 (.str _) (.cons k2 (.num _) .nil)) =>
      k1 = "char" && k2 = "color"
  | _ => false

/-- Shape of the output document per §6: a top-level object with exactly the
keys 'style_table' (an array of six style objects) and 'entries' (an array of
char-and-color objects), with 'style_table' first. -/
def outputShape : Json → Bool
  | .obj (.cons k1 (.arr sts) (.cons k2 (.arr es) .nil)) =>
      k1 = "style_table" && k2 = "entries" &&
        jsonListLength sts = 6 && allElems styleShape sts &&
        allElems entryShape es
  | _ => false

theorem style_table_length : style_table.length = 6 := rfl

theorem randint_zero_five (s : RandSrc) :
    randint 0 (style_table.length - 1) s = (s 0 % 6, fun n => s (n + 1)) := by
  simp [randint, style_table]

theorem genEntries_cons (i : Nat) (rest : List Nat) (s : RandSrc) :
    genEntries (i :: rest) s =
      ((⟨Char.ofNat i, s 0 % 6⟩ : CharacterEntry) ::
        (genEntries rest (fun n => s (n + 1))).1,
       (genEntries rest (fun n => s (n + 1))).2) := by
  simp [genEntries, randint_zero_five]

theorem genEntries_length (l : List Nat) (s : RandSrc) :
    (genEntries l s).1.length = l.length := by
  induction l generalizing s with
  | nil => rfl
  | cons i rest ih => simp [genEntries_cons, ih]

theorem genEntries_map_char (l : List Nat) (s : RandSrc) :
    (genEntries l s).1.map (fun e => e.char) = l.map Char.ofNat := by
  induction l generalizing s with
  | nil => rfl
  | cons i rest ih => simp [genEntries_cons, ih]

theorem genEntries_color_lt (l : List Nat) (s : RandSrc) :
    ∀ e ∈ (genEntries l s).1, e.color < 6 := by
  induction l generalizing s with
  | nil => intro e he; simp [genEntries] at he
  | cons i rest ih =>
    intro e he
    rw [genEntries_cons] at he
    rcases List.mem_cons.mp he with h | h
    · subst h; exact Nat.mod_lt _ (by omega)
    · exact ih _ e h

theorem genEntries_snd (l : List Nat) (s : RandSrc) :
    (genEntries l s).2 = fun n => s (n + l.length) := by
  induction l generalizing s with
  | nil => funext n; simp [genEntries]
  | cons i rest ih =>
    rw [genEntries_cons]
    simp only [ih]
    funext n
    simp only [List.length_cons]
    congr 1

theorem genEntries_getElem (l : List Nat) (s : RandSrc) (k : Nat) (hk : k < l.length) :
    (genEntries l s).1[k]? =
      some ⟨Char.ofNat (l.get ⟨k, hk⟩), s k % 6⟩ := by
  induction l generalizing s k with
  | nil => simp at hk
  | cons i rest ih =>
    rw [genEntries_cons]
    cases k with
    | zero => simp
    | succ j =>
      simp only [List.getElem?_cons_succ, List.getElem_cons_succ]
      exact ih _ j (by simpa using hk)

theorem genEntries_fst_ext (l : List Nat) (s t : RandSrc)
    (h : ∀ k, k < l.length → s k = t k) :
    (genEntries l s).1 = (genEntries l t).1 := by
  induction l generalizing s t with
  | nil => rfl
  | cons i rest ih =>
    have h0 : s 0 = t 0 := h 0 (by simp)
    have hrest : (genEntries rest (fun n => s (n + 1))).1 =
        (genEntries rest (fun n => t (n + 1))).1 := by
      apply ih
      intro k hk
      exact h (k + 1) (by simpa using Nat.succ_lt_succ hk)
    rw [genEntries_cons, genEntries_cons, h0, hrest]

theorem charRange_length : charRange.length = 20992 := by
  rw [charRange, List.length_range']

theorem DoJob_entries (s : RandSrc) :
    (DoJob s).1.entries = (genEntries charRange s).1 := by
  rw [DoJob]

theorem DoJob_style_table (s : RandSrc) :
    (DoJob s).1.style_table = style_table := by
  rw [DoJob]

theorem DoJob_snd (s : RandSrc) :
    (DoJob s).2 = fun n => s (n + 20992) := by
  rw [DoJob]
  simp only [genEntries_snd, charRange_length]

theorem charRange_eq : charRange = List.range' 0x4E00 20992 := by
  rw [charRange]

theorem charRange_cons : charRange = 0x4E00 :: List.range' 0x4E01 20991 := by
  rw [charRange_eq, show (20992 : Nat) = 20991 + 1 by norm_num, List.range'_succ]

theorem char_toNat_ofNat {n : Nat} (h : n < 0xD800) : (Char.ofNat n).toNat = n := by
  rw [Char.ofNat, dif_pos (Or.inl h)]
  rfl

theorem charRange_map_toNat :
    (charRange.map Char.ofNat).map Char.toNat = charRange := by
  rw [List.map_map]
  have h : ∀ i ∈ charRange, (Char.toNat ∘ Char.ofNat) i = id i := by
    intro i hi
    have hb : i < 0xD800 := by
      rw [charRange_eq] at hi
      rcases List.mem_range'.mp hi with ⟨j, hj, rfl⟩
      omega
    simpa using char_toNat_ofNat hb
  rw [List.map_congr_left h, List.map_id]

theorem DoJob_entries_length (s : RandSrc) :
    (DoJob s).1.entries.length = 20992 := by
  rw [DoJob_entries, genEntries_length, charRange_length]

theorem DoJob_entries_cons (s : RandSrc) :
    (DoJob s).1.entries =
      (⟨Char.ofNat 0x4E00, s 0 % 6⟩ : CharacterEntry) ::
        (genEntries (List.range' 0x4E01 20991) (fun n => s (n + 1))).1 := by
  rw [DoJob_entries, charRange_cons, genEntries_cons]

theorem DoJob_entries_getElem (s : RandSrc) (k : Nat) (hk : k < 20992) :
    (DoJob s).1.entries[k]? = some ⟨Char.ofNat (0x4E00 + k), s k % 6⟩ := by
  rw [DoJob_entries]
  have hk' : k < charRange.length := by rw [charRange_length]; exact hk
  rw [genEntries_getElem charRange s k hk']
  have hval : charRange.get ⟨k, hk'⟩ = 0x4E00 + k := by
    simp [charRange_eq]
  rw [hval]

/-- C1: for every run of `DoJob`, the `entries` list of the output document has
length exactly 20992, one `CharacterEntry` per code point in the inclusive
range from 0x4E00 to 0x9FFF. -/
theorem claim_C1 (s : RandSrc) : (DoJob s).1.entries.length = 20992 :=
  DoJob_entries_length s

/-- C2: for every run, the `char` fields of `entries`, in order, decoded back
to code points, are exactly the ascending sequence 0x4E00, 0x4E01, ..., 0x9FFF
with no gaps, duplicates, or reordering; in particular the first entry holds
the character at code point 0x4E00 and the last the character at 0x9FFF. -/
theorem claim_C2 (s : RandSrc) :
    (DoJob s).1.entries.map (fun e => e.char.toNat) = List.range' 0x4E00 20992 ∧
    ((DoJob s).1.entries.head?.map fun e => e.char) = some (Char.ofNat 0x4E00) ∧
    ((DoJob s).1.entries.getLast?.map fun e => e.char) = some (Char.ofNat 0x9FFF) := by
  refine ⟨?_, ?_, ?_⟩
  · rw [DoJob_entries,
      show (fun (e : CharacterEntry) => e.char.toNat) =
        Char.toNat ∘ (fun e : CharacterEntry => e.char) from rfl,
      ← List.map_map, genEntries_map_char, charRange_map_toNat, charRange_eq]
  · rw [DoJob_entries_cons]
    simp
  · rw [List.getLast?_eq_getElem?, DoJob_entries_length,
      show (20992 : Nat) - 1 = 20991 by norm_num,
      DoJob_entries_getElem s 20991 (by norm_num)]
    norm_num

/-- C3: for every run, every entry's `color` is an integer in the inclusive
range from 0 to 5, a valid index into the six-entry style table. -/
theorem claim_C3 (s : RandSrc) :
    ∀ e ∈ (DoJob s).1.entries, e.color ≤ 5 ∧ e.color < style_table.length := by
  intro e he
  rw [DoJob_entries] at he
  have h6 := genEntries_color_lt charRange s e he
  exact ⟨by omega, by rw [style_table_length]; omega⟩

/-- Witness for C3: the first entry of a concrete run is a member of `entries`
and its color is a valid style index. -/
theorem claim_C3_witness :
    (⟨Char.ofNat 0x4E00, 0⟩ : CharacterEntry) ∈ (DoJob (fun _ => 0)).1.entries ∧
    ((⟨Char.ofNat 0x4E00, 0⟩ : CharacterEntry).color ≤ 5 ∧
     (⟨Char.ofNat 0x4E00, 0⟩ : CharacterEntry).color < style_table.length) := by
  have hmem : (⟨Char.ofNat 0x4E00, 0⟩ : CharacterEntry) ∈ (DoJob (fun _ => 0)).1.entries := by
    rw [DoJob_entries_cons]
    exact List.mem_cons_self _ _
  exact ⟨hmem, claim_C3 (fun _ => 0) _ hmem⟩

/-- C4: for every run, the document's `style_table` is the literal six-entry
palette of §6, verbatim and in order. -/
theorem claim_C4 (s : RandSrc) :
    (DoJob s).1.style_table =
      [⟨"#B5B7C9", "14px"⟩, ⟨"#8B91AD", "20px"⟩, ⟨"#4E516B", "24px"⟩,
       ⟨"#2E3347", "27px"⟩, ⟨"#925D78", "30px"⟩, ⟨"#F1C5B5", "34px"⟩] ∧
    (DoJob s).1.style_table.length = 6 := by
  rw [DoJob_style_table]
  exact ⟨rfl, rfl⟩

/-- C10: every run consumes exactly 20992 draws from the random source (the
source is left advanced by exactly that amount and nothing else touches it),
one draw per code point in ascending order, and the k-th draw is used verbatim
as the color of the k-th entry, whose char is code point 0x4E00 + k. -/
theorem claim_C10 (s : RandSrc) :
    ((DoJob s).2 = fun n => s (n + 20992)) ∧
    ∀ k, k < 20992 →
      (DoJob s).1.entries[k]? =
        some ⟨Char.ofNat (0x4E00 + k), (randint 0 (style_table.length - 1)
          (fun n => s (n + k))).1⟩ := by
  refine ⟨DoJob_snd s, fun k hk => ?_⟩
  rw [DoJob_entries_getElem s k hk, randint_zero_five]
  norm_num

theorem plainChar_spec {c : Char} (h : plainChar c = true) :
    0x20 ≤ c.toNat ∧ c.toNat ≤ 0x7E ∧ c ≠ quoteChar ∧ c ≠ backslashChar := by
  simp only [plainChar, Bool.and_eq_true, decide_eq_true_eq] at h
  exact ⟨h.1.1.1, h.1.1.2, h.1.2, h.2⟩

theorem escSafeChar_spec {c : Char} (h : escSafeChar c = true) :
    0x7F ≤ c.toNat ∧ c.toNat < 0xD800 := by
  simp only [escSafeChar, Bool.and_eq_true, decide_eq_true_eq] at h
  exact h

theorem escapeChar_plain {c : Char} (h : plainChar c = true) : escapeChar c = [c] := by
  obtain ⟨h1, h2, h3, h4⟩ := plainChar_spec h
  have e8 : c ≠ Char.ofNat 8 := by intro hc; rw [hc] at h1; exact absurd h1 (by decide)
  have e9 : c ≠ Char.ofNat 9 := by intro hc; rw [hc] at h1; exact absurd h1 (by decide)
  have e10 : c ≠ Char.ofNat 10 := by intro hc; rw [hc] at h1; exact absurd h1 (by decide)
  have e12 : c ≠ Char.ofNat 12 := by intro hc; rw [hc] at h1; exact absurd h1 (by decide)
  have e13 : c ≠ Char.ofNat 13 := by intro hc; rw [hc] at h1; exact absurd h1 (by decide)
  rw [escapeChar, if_neg h3, if_neg h4, if_neg e8, if_neg e9, if_neg e10, if_neg e12,
    if_neg e13, if_pos ⟨h1, h2⟩]

theorem escapeChar_esc {c : Char} (h : escSafeChar c = true) :
    escapeChar c = backslashChar :: 'u' :: hex4 c.toNat := by
  obtain ⟨h1, h2⟩ := escSafeChar_spec h
  have hq : c ≠ quoteChar := by intro hc; rw [hc] at h1; exact absurd h1 (by decide)
  have hb : c ≠ backslashChar := by intro hc; rw [hc] at h1; exact absurd h1 (by decide)
  have e8 : c ≠ Char.ofNat 8 := by intro hc; rw [hc] at h1; exact absurd h1 (by decide)
  have e9 : c ≠ Char.ofNat 9 := by intro hc; rw [hc] at h1; exact absurd h1 (by decide)
  have e10 : c ≠ Char.ofNat 10 := by intro hc; rw [hc] at h1; exact absurd h1 (by decide)
  have e12 : c ≠ Char.ofNat 12 := by intro hc; rw [hc] at h1; exact absurd h1 (by decide)
  have e13 : c ≠ Char.ofNat 13 := by intro hc; rw [hc] at h1; exact absurd h1 (by decide)
  have hr : ¬(0x20 ≤ c.toNat ∧ c.toNat ≤ 0x7E) := by intro hx; omega
  rw [escapeChar, if_neg hq, if_neg hb, if_neg e8, if_neg e9, if_neg e10, if_neg e12,
    if_neg e13, if_neg hr, if_pos (by omega)]

theorem hexVal_hexDigitChar {d : Nat} (h : d < 16) :
    hexVal (hexDigitChar d) = some d := by
  interval_cases d <;> decide

theorem digitVal_digit {n : Nat} (h : n < 10) :
    digitVal (Char.ofNat (48 + n)) = some n := by
  interval_cases n <;> decide

theorem repr_digit {n : Nat} (h : n < 10) :
    (Nat.repr n).data = [Char.ofNat (48 + n)] := by
  interval_cases n <;> decide

theorem skipWs_cons_of_neg {c : Char} (l : List Char) (h : isWsChar c = false) :
    skipWs (c :: l) = c :: l := by
  simp [skipWs, h]

theorem skipWs_cons_of_pos {c : Char} (l : List Char) (h : isWsChar c = true) :
    skipWs (c :: l) = skipWs l := by
  simp [skipWs, h]

theorem parseDigitsAux_stop {l : List Char} (h : noDigitStart l = true) (acc : Nat) :
    parseDigitsAux l acc = (acc, l) := by
  cases l with
  | nil => rfl
  | cons c cs =>
    simp only [noDigitStart, Option.isNone_iff_eq_none] at h
    simp [parseDigitsAux, h]

theorem parseStringBody_escapeList (l : List Char) (hl : l.all wfChar = true)
    (rest : List Char) :
    parseStringBody (escapeList l ++ quoteChar :: rest) = some (l, rest) := by
  induction l with
  | nil =>
    rw [escapeList, List.nil_append, parseStringBody.eq_def]
    simp
  | cons c cs ih =>
    simp only [List.all_cons, Bool.and_eq_true] at hl
    obtain ⟨hc, hcs⟩ := hl
    rw [escapeList, List.append_assoc]
    rw [wfChar] at hc
    rcases Bool.or_eq_true_iff.mp hc with hp | he
    · obtain ⟨h1, h2, h3, h4⟩ := plainChar_spec hp
      have h5 : 0x20 ≤ c.toNat := by omega
      rw [escapeChar_plain hp, List.singleton_append, parseStringBody.eq_def]
      simp only []
      rw [if_neg h3, if_neg h4, if_pos h5, ih hcs]
    · obtain ⟨h1, h2⟩ := escSafeChar_spec he
      have hchar : Char.ofNat (4096 * (c.toNat / 4096 % 16) + 256 * (c.toNat / 256 % 16) +
          16 * (c.toNat / 16 % 16) + c.toNat % 16) = c := by
        have hsum : 4096 * (c.toNat / 4096 % 16) + 256 * (c.toNat / 256 % 16) +
            16 * (c.toNat / 16 % 16) + c.toNat % 16 = c.toNat := by omega
        rw [hsum, Char.ofNat_toNat]
      rw [escapeChar_esc he, hex4]
      simp only [List.cons_append, List.nil_append]
      rw [parseStringBody.eq_def]
      simp only []
      rw [if_neg (show ¬ backslashChar = quoteChar from by decide)]
      simp only [if_true]
      rw [hexVal_hexDigitChar (Nat.mod_lt _ (by omega)),
        hexVal_hexDigitChar (Nat.mod_lt _ (by omega)),
        hexVal_hexDigitChar (Nat.mod_lt _ (by omega)),
        hexVal_hexDigitChar (Nat.mod_lt _ (by omega))]
      simp only [ih hcs, hchar]

theorem renderJson_str (s : String) : renderJson (.str s) = renderString s.data := rfl

theorem renderJson_num (n : Nat) : renderJson (.num n) = (Nat.repr n).data := rfl

theorem renderJson_true : renderJson (.bool true) = "true".data := rfl

theorem renderJson_false : renderJson (.bool false) = "false".data := rfl

theorem renderJson_null : renderJson .null = "null".data := rfl

theorem renderJson_arr (xs : JsonList) :
    renderJson (.arr xs) = lbrackChar :: (renderList xs ++ [rbrackChar]) := rfl

theorem renderJson_obj (ms : JsonMembers) :
    renderJson (.obj ms) = lbraceChar :: (renderMembers ms ++ [rbraceChar]) := rfl

theorem renderList_single (x : Json) : renderList (.cons x .nil) = renderJson x := rfl

theorem renderList_cons (x y : Json) (ys : JsonList) :
    renderList (.cons x (.cons y ys)) =
      renderJson x ++ commaChar :: spaceChar :: renderList (.cons y ys) := rfl

theorem renderMembers_single (k : String) (v : Json) :
    renderMembers (.cons k v .nil) =
      renderString k.data ++ colonChar :: spaceChar :: renderJson v := rfl

theorem renderMembers_cons (k : String) (v : Json) (k2 : String) (v2 : Json)
    (ms : JsonMembers) :
    renderMembers (.cons k v (.cons k2 v2 ms)) =
      renderString k.data ++ colonChar :: spaceChar :: renderJson v ++
        commaChar :: spaceChar :: renderMembers (.cons k2 v2 ms) := rfl

theorem parseValue_ws_absorb {c : Char} (h : isWsChar c = true) (fuel : Nat)
    (l : List Char) :
    parseValue fuel (c :: l) = parseValue fuel l := by
  cases fuel with
  | zero => rfl
  | succ f =>
    rw [parseValue.eq_def, parseValue.eq_def]
    simp only [skipWs_cons_of_pos _ h]

theorem parseElems_ws_absorb {c : Char} (h : isWsChar c = true) (fuel : Nat)
    (l : List Char) :
    parseElems fuel (c :: l) = parseElems fuel l := by
  cases fuel with
  | zero => rfl
  | succ f =>
    rw [parseElems.eq_def, parseElems.eq_def]
    simp only [parseValue_ws_absorb h]

theorem parseMembers_ws_absorb {c : Char} (h : isWsChar c = true) (fuel : Nat)
    (l : List Char) :
    parseMembers fuel (c :: l) = parseMembers fuel l := by
  cases fuel with
  | zero => rfl
  | succ f =>
    rw [parseMembers.eq_def, parseMembers.eq_def]
    simp only [skipWs_cons_of_pos _ h]

theorem fuelJson_pos (v : Json) : 1 ≤ fuelJson v := by
  cases v <;> simp [fuelJson]

theorem fuelList_pos (l : JsonList) : 1 ≤ fuelList l := by
  cases l <;> simp [fuelList]

theorem fuelMembers_pos (ms : JsonMembers) : 1 ≤ fuelMembers ms := by
  cases ms <;> simp [fuelMembers]

theorem renderJson_head (v : Json) (hwf : wfJson v = true) :
    ∃ c t, renderJson v = c :: t ∧ isWsChar c = false ∧
      c ≠ rbrackChar ∧ c ≠ rbraceChar := by
  cases v with
  | str s =>
    exact ⟨quoteChar, escapeList s.data ++ [quoteChar],
      by rw [renderJson_str, renderString], by decide, by decide, by decide⟩
  | num n =>
    have h10 : n < 10 := by simpa [wfJson] using hwf
    refine ⟨Char.ofNat (48 + n), [], ?_, ?_, ?_, ?_⟩
    · rw [renderJson_num, repr_digit h10]
    · interval_cases n <;> decide
    · interval_cases n <;> decide
    · interval_cases n <;> decide
  | bool b =>
    cases b with
    | true => exact ⟨'t', ['r', 'u', 'e'], by decide, by decide, by decide, by decide⟩
    | false =>
      exact ⟨'f', ['a', 'l', 's', 'e'], by decide, by decide, by decide, by decide⟩
  | null => exact ⟨'n', ['u', 'l', 'l'], by decide, by decide, by decide, by decide⟩
  | arr xs =>
    exact ⟨lbrackChar, renderList xs ++ [rbrackChar],
      by rw [renderJson_arr], by decide, by decide, by decide⟩
  | obj ms =>
    exact ⟨lbraceChar, renderMembers ms ++ [rbraceChar],
      by rw [renderJson_obj], by decide, by decide, by decide⟩

theorem char_ne_of_toNat_ne {a b : Char} (h : a.toNat ≠ b.toNat) : a ≠ b :=
  fun hc => h (congrArg Char.toNat hc)

theorem ofNat_digit_ne {n : Nat} (hn : n < 10) {c : Char}
    (hc : c.toNat < 48 ∨ 57 < c.toNat) : Char.ofNat (48 + n) ≠ c := by
  apply char_ne_of_toNat_ne
  rw [char_toNat_ofNat (by omega)]
  omega

theorem noDigit_cons {c : Char} (h : (digitVal c).isNone = true) (l : List Char) :
    noDigitStart (c :: l) = true := by
  simp [noDigitStart, h]

theorem renderList_head (x : Json) (xs : JsonList) :
    ∃ t, renderList (.cons x xs) = renderJson x ++ t := by
  cases xs with
  | nil => exact ⟨[], by rw [renderList_single, List.append_nil]⟩
  | cons y ys =>
    exact ⟨commaChar :: spaceChar :: renderList (.cons y ys), renderList_cons x y ys⟩

theorem renderMembers_head (k : String) (v : Json) (ms : JsonMembers) :
    ∃ t, renderMembers (.cons k v ms) = quoteChar :: t := by
  cases ms with
  | nil =>
    refine ⟨escapeList k.data ++ [quoteChar] ++ colonChar :: spaceChar :: renderJson v, ?_⟩
    rw [renderMembers_single, renderString]
    simp [List.append_assoc]
  | cons k2 v2 ms2 =>
    refine ⟨escapeList k.data ++ [quoteChar] ++ colonChar :: spaceChar :: renderJson v ++
      commaChar :: spaceChar :: renderMembers (.cons k2 v2 ms2), ?_⟩
    rw [renderMembers_cons, renderString]
    simp [List.append_assoc]

theorem skipWs_renderJson (x : Json) (hwf : wfJson x = true) (tail : List Char) :
    skipWs (renderJson x ++ tail) = renderJson x ++ tail := by
  obtain ⟨c, t, hx, hws, _, _⟩ := renderJson_head x hwf
  rw [hx, List.cons_append, skipWs_cons_of_neg _ hws]

theorem skipWs_renderList (x : Json) (xs : JsonList) (hwf : wfJson x = true)
    (tail : List Char) :
    skipWs (renderList (.cons x xs) ++ tail) = renderList (.cons x xs) ++ tail := by
  obtain ⟨t, hrl⟩ := renderList_head x xs
  rw [hrl, List.append_assoc, skipWs_renderJson x hwf]

theorem skipWs_renderMembers (k : String) (v : Json) (ms : JsonMembers)
    (tail : List Char) :
    skipWs (renderMembers (.cons k v ms) ++ tail) =
      renderMembers (.cons k v ms) ++ tail := by
  obtain ⟨t, hrm⟩ := renderMembers_head k v ms
  rw [hrm, List.cons_append, skipWs_cons_of_neg _ (by decide)]

theorem wfList_cons {x : Json} {xs : JsonList} (h : wfList (.cons x xs) = true) :
    wfJson x = true ∧ wfList xs = true := by
  simpa [wfList, Bool.and_eq_true] using h

theorem wfMembers_cons {k : String} {v : Json} {ms : JsonMembers}
    (h : wfMembers (.cons k v ms) = true) :
    wfString k = true ∧ wfJson v = true ∧ wfMembers ms = true := by
  simpa [wfMembers, Bool.and_eq_true, and_assoc] using h

mutual

theorem parseValue_render (v : Json) (hwf : wfJson v = true) (fuel : Nat)
    (input rest : List Char) (hin : skipWs input = renderJson v ++ rest)
    (hfuel : fuelJson v ≤ fuel) (hrest : noDigitStart rest = true) :
    parseValue fuel input = some (v, rest) := by
  cases fuel with
  | zero => exact absurd hfuel (by have := fuelJson_pos v; omega)
  | succ f =>
    rw [parseValue.eq_def]
    simp only []
    rw [hin]
    cases v with
    | str s =>
      have hws : s.data.all wfChar = true := by simpa [wfJson, wfString] using hwf
      rw [renderJson_str, renderString]
      simp only [List.cons_append, if_true]
      rw [List.append_assoc, List.singleton_append,
        parseStringBody_escapeList s.data hws rest]
    | num n =>
      have h10 : n < 10 := by simpa [wfJson] using hwf
      rw [renderJson_num, repr_digit h10, List.singleton_append]
      simp only []
      rw [if_neg (ofNat_digit_ne h10 (by decide)),
        if_neg (ofNat_digit_ne h10 (by decide)),
        if_neg (ofNat_digit_ne h10 (by decide)),
        if_neg (ofNat_digit_ne h10 (by decide)),
        if_neg (ofNat_digit_ne h10 (by decide)),
        if_neg (ofNat_digit_ne h10 (by decide))]
      simp only [parseNat, digitVal_digit h10, parseDigitsAux_stop hrest]
    | bool b =>
      cases b with
      | true =>
        rw [renderJson_true, show "true".data = ['t', 'r', 'u', 'e'] from rfl]
        simp only [List.cons_append, List.nil_append]
        rw [if_neg (by decide : ¬ 't' = quoteChar),
          if_neg (by decide : ¬ 't' = lbrackChar),
          if_neg (by decide : ¬ 't' = lbraceChar)]
        simp only [if_true]
      | false =>
        rw [renderJson_false, show "false".data = ['f', 'a', 'l', 's', 'e'] from rfl]
        simp only [List.cons_append, List.nil_append]
        rw [if_neg (by decide : ¬ 'f' = quoteChar),
          if_neg (by decide : ¬ 'f' = lbrackChar),
          if_neg (by decide : ¬ 'f' = lbraceChar),
          if_neg (by decide : ¬ 'f' = 't')]
        simp only [if_true]
    | null =>
      rw [renderJson_null, show "null".data = ['n', 'u', 'l', 'l'] from rfl]
      simp only [List.cons_append, List.nil_append]
      rw [if_neg (by decide : ¬ 'n' = quoteChar),
        if_neg (by decide : ¬ 'n' = lbrackChar),
        if_neg (by decide : ¬ 'n' = lbraceChar),
        if_neg (by decide : ¬ 'n' = 't'),
        if_neg (by decide : ¬ 'n' = 'f')]
      simp only [if_true]
    | arr xs =>
      rw [renderJson_arr]
      simp only [List.cons_append]
      rw [if_neg (by decide : ¬ lbrackChar = quoteChar)]
      simp only [if_true]
      cases xs with
      | nil =>
        simp only [renderList, List.nil_append, List.singleton_append, List.cons_append]
        rw [skipWs_cons_of_neg _ (by decide)]
        simp only [if_true]
      | cons x xs2 =>
        have hfl : fuelList (.cons x xs2) ≤ f := by
          simp only [fuelJson] at hfuel
          omega
        have hwl : wfList (.cons x xs2) = true := by simpa [wfJson] using hwf
        obtain ⟨hwx, hwxs⟩ := wfList_cons hwl
        obtain ⟨t, hrl⟩ := renderList_head x xs2
        obtain ⟨hc, ht, hx, hcws, hcnb, _⟩ := renderJson_head x hwx
        have hshape : (renderList (.cons x xs2) ++ [rbrackChar]) ++ rest =
            hc :: (ht ++ (t ++ rbrackChar :: rest)) := by
          rw [hrl, hx]
          simp [List.append_assoc]
        rw [hshape, skipWs_cons_of_neg _ hcws]
        simp only []
        rw [if_neg hcnb]
        have hback : hc :: (ht ++ (t ++ rbrackChar :: rest)) =
            renderList (.cons x xs2) ++ rbrackChar :: rest := by
          rw [hrl, hx]
          simp [List.append_assoc]
        rw [hback, parseElems_render (.cons x xs2) (by simp) hwl f _ rest
          (skipWs_renderList x xs2 hwx (rbrackChar :: rest)) hfl]
    | obj ms =>
      rw [renderJson_obj]
      simp only [List.cons_append]
      rw [if_neg (by decide : ¬ lbraceChar = quoteChar),
        if_neg (by decide : ¬ lbraceChar = lbrackChar)]
      simp only [if_true]
      cases ms with
      | nil =>
        simp only [renderMembers, List.nil_append, List.singleton_append, List.cons_append]
        rw [skipWs_cons_of_neg _ (by decide)]
        simp only [if_true]
      | cons k v ms2 =>
        have hfm : fuelMembers (.cons k v ms2) ≤ f := by
          simp only [fuelJson] at hfuel
          omega
        have hwm : wfMembers (.cons k v ms2) = true := by simpa [wfJson] using hwf
        obtain ⟨t, hrm⟩ := renderMembers_head k v ms2
        have hshape : (renderMembers (.cons k v ms2) ++ [rbraceChar]) ++ rest =
            quoteChar :: (t ++ rbraceChar :: rest) := by
          rw [hrm]
          simp [List.append_assoc]
        rw [hshape, skipWs_cons_of_neg _ (by decide)]
        simp only []
        rw [if_neg (by decide : ¬ quoteChar = rbraceChar)]
        have hback : quoteChar :: (t ++ rbraceChar :: rest) =
            renderMembers (.cons k v ms2) ++ rbraceChar :: rest := by
          rw [hrm]
          simp [List.append_assoc]
        rw [hback, parseMembers_render (.cons k v ms2) (by simp) hwm f _ rest
          (skipWs_renderMembers k v ms2 (rbraceChar :: rest)) hfm]

theorem parseElems_render (l : JsonList) (hne : l ≠ JsonList.nil)
    (hwf : wfList l = true) (fuel : Nat) (input rest : List Char)
    (hin : skipWs input = renderList l ++ rbrackChar :: rest)
    (hfuel : fuelList l ≤ fuel) :
    parseElems fuel input = some (l, rest) := by
  cases fuel with
  | zero => exact absurd hfuel (by have := fuelList_pos l; omega)
  | succ f =>
    rw [parseElems.eq_def]
    simp only []
    cases l with
    | nil => exact absurd rfl hne
    | cons x xs =>
      obtain ⟨hwx, hwxs⟩ := wfList_cons hwf
      cases xs with
      | nil =>
        rw [renderList_single] at hin
        rw [parseValue_render x hwx f input (rbrackChar :: rest) hin
          (by simp only [fuelList] at hfuel; have := fuelList_pos JsonList.nil; omega)
          (noDigit_cons (by decide) rest)]
        simp only []
        rw [skipWs_cons_of_neg _ (by decide)]
        simp only []
        rw [if_neg (by decide : ¬ rbrackChar = commaChar)]
        simp only [if_true]
      | cons y ys =>
        rw [renderList_cons, List.append_assoc] at hin
        rw [parseValue_render x hwx f input
          (commaChar :: spaceChar :: (renderList (.cons y ys) ++ rbrackChar :: rest))
          (by simpa using hin)
          (by simp only [fuelList] at hfuel ⊢; omega)
          (noDigit_cons (by decide) _)]
        simp only []
        rw [skipWs_cons_of_neg _ (by decide)]
        simp only [if_true]
        rw [parseElems_render (.cons y ys) (by simp) hwxs f
          (spaceChar :: (renderList (.cons y ys) ++ rbrackChar :: rest)) rest
          (by rw [skipWs_cons_of_pos _ (by decide), skipWs_renderList y ys
            (wfList_cons hwxs).1])
          (by simp only [fuelList] at hfuel ⊢; omega)]

theorem parseMembers_render (ms : JsonMembers) (hne : ms ≠ JsonMembers.nil)
    (hwf : wfMembers ms = true) (fuel : Nat) (input rest : List Char)
    (hin : skipWs input = renderMembers ms ++ rbraceChar :: rest)
    (hfuel : fuelMembers ms ≤ fuel) :
    parseMembers fuel input = some (ms, rest) := by
  cases fuel with
  | zero => exact absurd hfuel (by have := fuelMembers_pos ms; omega)
  | succ f =>
    rw [parseMembers.eq_def]
    simp only []
    cases ms with
    | nil => exact absurd rfl hne
    | cons k v ms2 =>
      obtain ⟨hwk, hwv, hwms⟩ := wfMembers_cons hwf
      have hwkl : k.data.all wfChar = true := by simpa [wfString] using hwk
      cases ms2 with
      | nil =>
        rw [renderMembers_single, renderString] at hin
        simp only [List.cons_append, List.append_assoc, List.singleton_append,
          List.nil_append] at hin
        rw [hin]
        simp only [if_true]
        rw [parseStringBody_escapeList k.data hwkl _]
        simp only []
        rw [skipWs_cons_of_neg _ (by decide)]
        simp only [if_true]
        rw [parseValue_render v hwv f
          (spaceChar :: (renderJson v ++ rbraceChar :: rest)) (rbraceChar :: rest)
          (by rw [skipWs_cons_of_pos _ (by decide), skipWs_renderJson v hwv])
          (by simp only [fuelMembers] at hfuel; have := fuelMembers_pos JsonMembers.nil; omega)
          (noDigit_cons (by decide) rest)]
        simp only []
        rw [skipWs_cons_of_neg _ (by decide)]
        simp only []
        rw [if_neg (by decide : ¬ rbraceChar = commaChar)]
        simp only [if_true]
      | cons k2 v2 ms3 =>
        rw [renderMembers_cons, renderString] at hin
        simp only [List.cons_append, List.append_assoc, List.singleton_append,
          List.nil_append] at hin
        rw [hin]
        simp only [if_true]
        rw [parseStringBody_escapeList k.data hwkl _]
        simp only []
        rw [skipWs_cons_of_neg _ (by decide)]
        simp only [if_true]
        rw [parseValue_render v hwv f
          (spaceChar :: (renderJson v ++ commaChar :: spaceChar ::
            (renderMembers (.cons k2 v2 ms3) ++ rbraceChar :: rest)))
          (commaChar :: spaceChar :: (renderMembers (.cons k2 v2 ms3) ++
            rbraceChar :: rest))
          (by rw [skipWs_cons_of_pos _ (by decide), skipWs_renderJson v hwv])
          (by simp only [fuelMembers] at hfuel ⊢; omega)
          (noDigit_cons (by decide) _)]
        simp only []
        rw [skipWs_cons_of_neg _ (by decide)]
        simp only [if_true]
        rw [parseMembers_render (.cons k2 v2 ms3) (by simp) hwms f
          (spaceChar :: (renderMembers (.cons k2 v2 ms3) ++ rbraceChar :: rest)) rest
          (by rw [skipWs_cons_of_pos _ (by decide), skipWs_renderMembers k2 v2 ms3])
          (by simp only [fuelMembers] at hfuel ⊢; omega)]

end

mutual

theorem fuelJson_le (v : Json) (hwf : wfJson v = true) :
    fuelJson v + 1 ≤ 2 * (renderJson v).length := by
  cases v with
  | str s =>
    rw [renderJson_str, renderString]
    simp only [fuelJson, List.length_cons, List.length_append]
    omega
  | num n =>
    have h10 : n < 10 := by simpa [wfJson] using hwf
    rw [renderJson_num, repr_digit h10]
    simp [fuelJson]
  | bool b => cases b <;> simp [fuelJson, renderJson_true, renderJson_false]
  | null => simp [fuelJson, renderJson_null]
  | arr xs =>
    have h := fuelList_le xs (by simpa [wfJson] using hwf)
    rw [renderJson_arr]
    simp only [fuelJson, List.length_cons, List.length_append] at h ⊢
    omega
  | obj ms =>
    have h := fuelMembers_le ms (by simpa [wfJson] using hwf)
    rw [renderJson_obj]
    simp only [fuelJson, List.length_cons, List.length_append] at h ⊢
    omega

theorem fuelList_le (l : JsonList) (hwf : wfList l = true) :
    fuelList l ≤ 2 * (renderList l).length + 2 := by
  cases l with
  | nil => simp [fuelList, renderList]
  | cons x xs =>
    obtain ⟨hwx, hwxs⟩ := wfList_cons hwf
    have hx := fuelJson_le x hwx
    cases xs with
    | nil =>
      rw [renderList_single]
      simp only [fuelList]
      omega
    | cons y ys =>
      have hys := fuelList_le (.cons y ys) hwxs
      rw [renderList_cons]
      simp only [fuelList, List.length_append, List.length_cons] at hys ⊢
      omega

theorem fuelMembers_le (ms : JsonMembers) (hwf : wfMembers ms = true) :
    fuelMembers ms ≤ 2 * (renderMembers ms).length + 2 := by
  cases ms with
  | nil => simp [fuelMembers, renderMembers]
  | cons k v ms2 =>
    obtain ⟨hwk, hwv, hwms⟩ := wfMembers_cons hwf
    have hv := fuelJson_le v hwv
    cases ms2 with
    | nil =>
      rw [renderMembers_single]
      simp only [fuelMembers, List.length_append, List.length_cons]
      omega
    | cons k2 v2 ms3 =>
      have hms := fuelMembers_le (.cons k2 v2 ms3) hwms
      rw [renderMembers_cons]
      simp only [fuelMembers, List.length_append, List.length_cons] at hms ⊢
      omega

end

theorem parseJson_render (v : Json) (hwf : wfJson v = true) :
    parseJson (String.mk (renderJson v)) = some v := by
  rw [parseJson]
  have hd : (String.mk (renderJson v)).data = renderJson v := rfl
  rw [hd]
  have hfuel : fuelJson v ≤ 2 * (renderJson v).length + 2 := by
    have := fuelJson_le v hwf
    omega
  have hin : skipWs (renderJson v) = renderJson v ++ [] := by
    rw [List.append_nil]
    obtain ⟨c, t, hx, hws, _, _⟩ := renderJson_head v hwf
    rw [hx, skipWs_cons_of_neg _ hws]
  rw [parseValue_render v hwf (2 * (renderJson v).length + 2) (renderJson v) [] hin
    hfuel rfl]
  simp [skipWs]

theorem genEntries_mem {l : List Nat} {s : RandSrc} {e : CharacterEntry}
    (he : e ∈ (genEntries l s).1) :
    (∃ i ∈ l, e.char = Char.ofNat i) ∧ e.color < 6 := by
  induction l generalizing s with
  | nil => simp [genEntries] at he
  | cons i rest ih =>
    rw [genEntries_cons] at he
    rcases List.mem_cons.mp he with h | h
    · subst h
      exact ⟨⟨i, List.mem_cons_self _ _, rfl⟩, Nat.mod_lt _ (by omega)⟩
    · obtain ⟨⟨j, hj, hch⟩, hcol⟩ := ih h
      exact ⟨⟨j, List.mem_cons_of_mem _ hj, hch⟩, hcol⟩

theorem DoJob_entries_bounds (s : RandSrc) :
    ∀ e ∈ (DoJob s).1.entries,
      0x4E00 ≤ e.char.toNat ∧ e.char.toNat ≤ 0x9FFF ∧ e.color < 6 := by
  intro e he
  rw [DoJob_entries] at he
  obtain ⟨⟨i, hi, hch⟩, hcol⟩ := genEntries_mem he
  rw [charRange_eq] at hi
  rcases List.mem_range'.mp hi with ⟨j, hj, rfl⟩
  have hb : 0x4E00 + 1 * j < 0xD800 := by omega
  rw [hch, char_toNat_ofNat hb]
  omega

theorem wfJson_charEntryJson {e : CharacterEntry} (hc1 : 0x4E00 ≤ e.char.toNat)
    (hc2 : e.char.toNat ≤ 0x9FFF) (hcol : e.color < 6) :
    wfJson (charEntryJson e) = true := by
  have hwc : wfChar e.char = true := by
    simp only [wfChar, escSafeChar, Bool.or_eq_true, Bool.and_eq_true, decide_eq_true_eq]
    right
    omega
  simp only [charEntryJson, wfJson, wfMembers, wfString, List.all_cons, List.all_nil,
    Bool.and_true, Bool.and_eq_true, hwc]
  refine ⟨by decide, by decide, ?_⟩
  simp only [decide_eq_true_eq]
  omega

theorem wfList_entriesJson (es : List CharacterEntry)
    (h : ∀ e ∈ es, 0x4E00 ≤ e.char.toNat ∧ e.char.toNat ≤ 0x9FFF ∧ e.color < 6) :
    wfList (entriesJson es) = true := by
  induction es with
  | nil => rfl
  | cons e es2 ih =>
    obtain ⟨h1, h2, h3⟩ := h e (List.mem_cons_self _ _)
    simp only [entriesJson, wfList, Bool.and_eq_true]
    exact ⟨wfJson_charEntryJson h1 h2 h3,
      ih fun x hx => h x (List.mem_cons_of_mem _ hx)⟩

theorem wfJson_docJson (s : RandSrc) : wfJson (docJson (DoJob s).1) = true := by
  simp only [docJson, wfJson, wfMembers, wfString, List.all_cons, List.all_nil,
    Bool.and_true, Bool.and_eq_true]
  refine ⟨⟨by decide, ?_⟩, by decide, ?_⟩
  · rw [DoJob_style_table]
    decide
  · exact wfList_entriesJson _ (DoJob_entries_bounds s)

theorem allElems_entryShape (es : List CharacterEntry) :
    allElems entryShape (entriesJson es) = true := by
  induction es with
  | nil => rfl
  | cons e es2 ih =>
    simp only [allElems, entriesJson, Bool.and_eq_true]
    exact ⟨rfl, ih⟩

theorem outputShape_docJson (s : RandSrc) :
    outputShape (docJson (DoJob s).1) = true := by
  rw [docJson, DoJob_style_table]
  simp only [outputShape, Bool.and_eq_true]
  exact ⟨⟨⟨⟨by decide, by decide⟩, by decide⟩, by decide⟩, allElems_entryShape _⟩

/-- C5: for every run, the text handed to the sink is syntactically valid
JSON, parsing (by the recursive-descent JSON parser `parseJson`) into the
very tree the document serializes to, and that tree has the §6 shape: a
top-level object with exactly the keys style_table (an array of 6 color-size
string objects) and entries (an array of char-color objects), style_table
first. -/
theorem claim_C5 (s : RandSrc) :
    parseJson (DoJobOutput s) = some (docJson (DoJob s).1) ∧
    outputShape (docJson (DoJob s).1) = true := by
  constructor
  · rw [DoJobOutput, dumps]
    exact parseJson_render _ (wfJson_docJson s)
  · exact outputShape_docJson s

theorem hexDigitChar_bounds {d : Nat} (h : d < 16) :
    0x20 ≤ (hexDigitChar d).toNat ∧ (hexDigitChar d).toNat ≤ 0x7E := by
  interval_cases d <;> decide

theorem escapeChar_chars {c : Char} (h : wfChar c = true) :
    ∀ x ∈ escapeChar c, 0x20 ≤ x.toNat ∧ x.toNat ≤ 0x7E := by
  rw [wfChar] at h
  rcases Bool.or_eq_true_iff.mp h with hp | he
  · obtain ⟨h1, h2, _, _⟩ := plainChar_spec hp
    rw [escapeChar_plain hp]
    intro x hx
    rw [List.mem_singleton.mp hx]
    exact ⟨h1, h2⟩
  · obtain ⟨h1, h2⟩ := escSafeChar_spec he
    rw [escapeChar_esc he, hex4]
    intro x hx
    rcases List.mem_cons.mp hx with rfl | hx
    · decide
    rcases List.mem_cons.mp hx with rfl | hx
    · decide
    rcases List.mem_cons.mp hx with rfl | hx
    · exact hexDigitChar_bounds (Nat.mod_lt _ (by omega))
    rcases List.mem_cons.mp hx with rfl | hx
    · exact hexDigitChar_bounds (Nat.mod_lt _ (by omega))
    rcases List.mem_cons.mp hx with rfl | hx
    · exact hexDigitChar_bounds (Nat.mod_lt _ (by omega))
    rcases List.mem_cons.mp hx with rfl | hx
    · exact hexDigitChar_bounds (Nat.mod_lt _ (by omega))
    simp at hx

theorem escapeList_chars {l : List Char} (h : l.all wfChar = true) :
    ∀ x ∈ escapeList l, 0x20 ≤ x.toNat ∧ x.toNat ≤ 0x7E := by
  induction l with
  | nil => intro x hx; simp [escapeList] at hx
  | cons c cs ih =>
    simp only [List.all_cons, Bool.and_eq_true] at h
    intro x hx
    rw [escapeList] at hx
    rcases List.mem_append.mp hx with h3 | h3
    · exact escapeChar_chars h.1 x h3
    · exact ih h.2 x h3

theorem renderString_chars {l : List Char} (h : l.all wfChar = true) :
    ∀ x ∈ renderString l, 0x20 ≤ x.toNat ∧ x.toNat ≤ 0x7E := by
  rw [renderString]
  intro x hx
  rcases List.mem_cons.mp hx with rfl | hx
  · decide
  rcases List.mem_append.mp hx with h3 | h3
  · exact escapeList_chars h x h3
  · rw [List.mem_singleton.mp h3]
    decide

mutual

theorem renderJson_chars (v : Json) (hwf : wfJson v = true) :
    ∀ x ∈ renderJson v, 0x20 ≤ x.toNat ∧ x.toNat ≤ 0x7E := by
  cases v with
  | str s =>
    rw [renderJson_str]
    exact renderString_chars (by simpa [wfJson, wfString] using hwf)
  | num n =>
    have h10 : n < 10 := by simpa [wfJson] using hwf
    rw [renderJson_num, repr_digit h10]
    intro x hx
    rw [List.mem_singleton.mp hx, char_toNat_ofNat (by omega)]
    omega
  | bool b =>
    cases b with
    | true =>
      rw [renderJson_true]
      decide
    | false =>
      rw [renderJson_false]
      decide
  | null =>
    rw [renderJson_null]
    decide
  | arr xs =>
    rw [renderJson_arr]
    intro x hx
    rcases List.mem_cons.mp hx with rfl | hx
    · decide
    rcases List.mem_append.mp hx with h3 | h3
    · exact renderList_chars xs (by simpa [wfJson] using hwf) x h3
    · rw [List.mem_singleton.mp h3]
      decide
  | obj ms =>
    rw [renderJson_obj]
    intro x hx
    rcases List.mem_cons.mp hx with rfl | hx
    · decide
    rcases List.mem_append.mp hx with h3 | h3
    · exact renderMembers_chars ms (by simpa [wfJson] using hwf) x h3
    · rw [List.mem_singleton.mp h3]
      decide

theorem renderList_chars (l : JsonList) (hwf : wfList l = true) :
    ∀ x ∈ renderList l, 0x20 ≤ x.toNat ∧ x.toNat ≤ 0x7E := by
  cases l with
  | nil => intro x hx; simp [renderList] at hx
  | cons a xs =>
    obtain ⟨hwa, hwxs⟩ := wfList_cons hwf
    cases xs with
    | nil =>
      rw [renderList_single]
      exact renderJson_chars a hwa
    | cons y ys =>
      rw [renderList_cons]
      intro x hx
      rcases List.mem_append.mp hx with h3 | h3
      · exact renderJson_chars a hwa x h3
      rcases List.mem_cons.mp h3 with rfl | h4
      · decide
      rcases List.mem_cons.mp h4 with rfl | h5
      · decide
      · exact renderList_chars (.cons y ys) hwxs x h5

theorem renderMembers_chars (ms : JsonMembers) (hwf : wfMembers ms = true) :
    ∀ x ∈ renderMembers ms, 0x20 ≤ x.toNat ∧ x.toNat ≤ 0x7E := by
  cases ms with
  | nil => intro x hx; simp [renderMembers] at hx
  | cons k v ms2 =>
    obtain ⟨hwk, hwv, hwms⟩ := wfMembers_cons hwf
    have hwkl : k.data.all wfChar = true := by simpa [wfString] using hwk
    cases ms2 with
    | nil =>
      rw [renderMembers_single]
      intro x hx
      rcases List.mem_append.mp hx with h3 | h3
      · exact renderString_chars hwkl x h3
      rcases List.mem_cons.mp h3 with rfl | h4
      · decide
      rcases List.mem_cons.mp h4 with rfl | h5
      · decide
      · exact renderJson_chars v hwv x h5
    | cons k2 v2 ms3 =>
      rw [renderMembers_cons]
      intro x hx
      rcases List.mem_append.mp hx with h3 | h3
      · rcases List.mem_append.mp h3 with h4 | h4
        · exact renderString_chars hwkl x h4
        rcases List.mem_cons.mp h4 with rfl | h5
        · decide
        rcases List.mem_cons.mp h5 with rfl | h6
        · decide
        · exact renderJson_chars v hwv x h6
      · rcases List.mem_cons.mp h3 with rfl | h4
        · decide
        rcases List.mem_cons.mp h4 with rfl | h5
        · decide
        · exact renderMembers_chars (.cons k2 v2 ms3) hwms x h5

end

theorem DoJobOutput_chars (s : RandSrc) :
    ∀ c ∈ (DoJobOutput s).data, 0x20 ≤ c.toNat ∧ c.toNat ≤ 0x7E := by
  intro c hc
  exact renderJson_chars _ (wfJson_docJson s) c hc

theorem DoJobOutput_head (s : RandSrc) :
    ∃ t, (DoJobOutput s).data = lbraceChar :: t := by
  refine ⟨renderMembers (.cons "style_table" (.arr (stylesJson (DoJob s).1.style_table))
    (.cons "entries" (.arr (entriesJson (DoJob s).1.entries)) .nil)) ++ [rbraceChar], ?_⟩
  rw [show (DoJobOutput s).data = renderJson (docJson (DoJob s).1) from rfl, docJson,
    renderJson_obj]

theorem DoJobOutput_last (s : RandSrc) :
    (DoJobOutput s).data.getLast? = some rbraceChar := by
  rw [show (DoJobOutput s).data = renderJson (docJson (DoJob s).1) from rfl, docJson,
    renderJson_obj, show ∀ x y, lbraceChar :: (x ++ [y]) = (lbraceChar :: x) ++ [y]
      from fun x y => rfl, List.getLast?_concat]

/-- C6: every run delivers the whole serialized document to the sink in
exactly one write, and the written text contains no newline and no tab (hence
no trailing newline and no indentation) and ends with the document's closing
brace. -/
theorem claim_C6 (s : RandSrc) :
    DoJobWrites s = [DoJobOutput s] ∧ (DoJobWrites s).length = 1 ∧
    (∀ c ∈ (DoJobOutput s).data, c ≠ Char.ofNat 10 ∧ c ≠ Char.ofNat 9) ∧
    (DoJobOutput s).data.getLast? = some rbraceChar := by
  refine ⟨rfl, rfl, ?_, DoJobOutput_last s⟩
  intro c hc
  obtain ⟨h1, _⟩ := DoJobOutput_chars s c hc
  constructor
  · intro he
    rw [he] at h1
    exact absurd h1 (by decide)
  · intro he
    rw [he] at h1
    exact absurd h1 (by decide)

/-- Witness for C6: the opening brace is a character of a concrete run's
output and is neither a newline nor a tab. -/
theorem claim_C6_witness :
    lbraceChar ∈ (DoJobOutput (fun _ => 0)).data ∧
    lbraceChar ≠ Char.ofNat 10 ∧ lbraceChar ≠ Char.ofNat 9 := by
  obtain ⟨t, ht⟩ := DoJobOutput_head (fun _ => 0)
  have hm : lbraceChar ∈ (DoJobOutput (fun _ => 0)).data := by
    rw [ht]
    exact List.mem_cons_self _ _
  exact ⟨hm, (claim_C6 (fun _ => 0)).2.2.1 lbraceChar hm⟩

/-- C7: the only possible error of a run is a failure of the single sink
write: main passes DoJob's behavior through unhandled, the effect of a run
is exactly the one write of the serialized text, a run errors iff that write
errors, and if the write succeeds the run succeeds (the pure construction is
total and cannot fail). -/
theorem claim_C7 (ε : Type) (s : RandSrc) (sink : String → Except ε Unit) :
    main s sink = DoJobEffect s sink ∧
    DoJobEffect s sink = sink (DoJobOutput s) ∧
    ((∃ e, DoJobEffect s sink = .error e) ↔
      (∃ e, sink (DoJobOutput s) = .error e)) ∧
    (sink (DoJobOutput s) = .ok () → DoJobEffect s sink = .ok ()) :=
  ⟨rfl, rfl, Iff.rfl, fun h => h⟩

/-- Witness for C7: with a sink that accepts the write, a concrete run
succeeds. -/
theorem claim_C7_witness :
    (fun _ : String => (Except.ok () : Except Unit Unit))
        (DoJobOutput (fun _ => 0)) = Except.ok () ∧
    DoJobEffect (fun _ => 0)
        (fun _ : String => (Except.ok () : Except Unit Unit)) = Except.ok () :=
  ⟨rfl, (claim_C7 Unit (fun _ => 0) (fun _ => Except.ok ())).2.2.2 rfl⟩

/-- C8: runs that agree on the draws actually consumed (the first 20992)
produce identical documents and identical output bytes; and for any two runs
whatever the random-source states, the style table and the char sequence
coincide. -/
theorem claim_C8 (s t : RandSrc) :
    ((DoJob s).1.style_table = (DoJob t).1.style_table ∧
      (DoJob s).1.entries.map (fun e => e.char) =
        (DoJob t).1.entries.map (fun e => e.char)) ∧
    ((∀ k, k < 20992 → s k = t k) →
      (DoJob s).1 = (DoJob t).1 ∧ DoJobOutput s = DoJobOutput t) := by
  refine ⟨⟨?_, ?_⟩, ?_⟩
  · rw [DoJob_style_table, DoJob_style_table]
  · rw [DoJob_entries, DoJob_entries, genEntries_map_char, genEntries_map_char]
  · intro h
    have hdoc : (DoJob s).1 = (DoJob t).1 := by
      have he : (genEntries charRange s).1 = (genEntries charRange t).1 :=
        genEntries_fst_ext charRange s t
          (fun k hk => h k (by rwa [charRange_length] at hk))
      rw [DoJob, DoJob]
      simp only [he]
    exact ⟨hdoc, by rw [DoJobOutput, DoJobOutput, hdoc]⟩

/-- Witness for C8: two concrete sources agreeing on the first 20992 draws
and disagreeing later give the same document and the same output text. -/
theorem claim_C8_witness :
    (∀ k, k < 20992 →
      (fun _ => 0 : RandSrc) k = (fun j => if j < 20992 then 0 else 7 : RandSrc) k) ∧
    (DoJob (fun _ => 0)).1 = (DoJob (fun j => if j < 20992 then 0 else 7)).1 ∧
    DoJobOutput (fun _ => 0) =
      DoJobOutput (fun j => if j < 20992 then 0 else 7) := by
  have h : ∀ k, k < 20992 →
      (fun _ => 0 : RandSrc) k = (fun j => if j < 20992 then 0 else 7 : RandSrc) k := by
    intro k hk
    simp [hk]
  exact ⟨h, (claim_C8 _ _).2 h⟩

/-- C9: the output text is pure ASCII: every character of the serialized
document has code point below 128, and every CJK character in a char field
is escaped as the six-character sequence backslash, u, and four hex digits. -/
theorem claim_C9 (s : RandSrc) :
    (∀ c ∈ (DoJobOutput s).data, c.toNat < 128) ∧
    ∀ e ∈ (DoJob s).1.entries,
      escapeChar e.char = backslashChar :: 'u' :: hex4 e.char.toNat ∧
      (escapeChar e.char).length = 6 := by
  constructor
  · intro c hc
    obtain ⟨_, h2⟩ := DoJobOutput_chars s c hc
    omega
  · intro e he
    obtain ⟨h1, h2, _⟩ := DoJob_entries_bounds s e he
    have hesc : escSafeChar e.char = true := by
      simp only [escSafeChar, Bool.and_eq_true, decide_eq_true_eq]
      omega
    refine ⟨escapeChar_esc hesc, ?_⟩
    rw [escapeChar_esc hesc, hex4]
    rfl

/-- Witness for C9: the opening brace of a concrete run's output is ASCII,
and the run's first entry holds the CJK character U+4E00, whose escaping is
the six-character backslash-u sequence. -/
theorem claim_C9_witness :
    (lbraceChar ∈ (DoJobOutput (fun _ => 0)).data ∧ lbraceChar.toNat < 128) ∧
    ((⟨Char.ofNat 0x4E00, 0⟩ : CharacterEntry) ∈ (DoJob (fun _ => 0)).1.entries ∧
      escapeChar (Char.ofNat 0x4E00) =
        backslashChar :: 'u' :: hex4 (Char.ofNat 0x4E00).toNat ∧
      (escapeChar (Char.ofNat 0x4E00)).length = 6) := by
  obtain ⟨t, ht⟩ := DoJobOutput_head (fun _ => 0)
  have hm : lbraceChar ∈ (DoJobOutput (fun _ => 0)).data := by
    rw [ht]
    exact List.mem_cons_self _ _
  have hme : (⟨Char.ofNat 0x4E00, 0⟩ : CharacterEntry) ∈
      (DoJob (fun _ => 0)).1.entries := by
    rw [DoJob_entries_cons]
    exact List.mem_cons_self _ _
  exact ⟨⟨hm, (claim_C9 (fun _ => 0)).1 lbraceChar hm⟩,
    ⟨hme, (claim_C9 (fun _ => 0)).2 _ hme⟩⟩

/-- Witness for C10: the sixth entry of a concrete run is the sixth draw. -/
theorem claim_C10_witness :
    (5 : Nat) < 20992 ∧
    (DoJob (fun n => n)).1.entries[5]? =
      some ⟨Char.ofNat (0x4E00 + 5), (randint 0 (style_table.length - 1)
        (fun n => (fun m : Nat => m) (n + 5))).1⟩ :=
  ⟨by norm_num, (claim_C10 (fun n => n)).2 5 (by norm_num)⟩

end GenChar
